import Mathlib

/-!
Shallow embedding of the HDRF streaming vertex-cut partitioner
(src/include/CXXGraph/Partitioning/HDRF.hpp) together with the Vertex
Record and Partition State contracts it relies on.  Double arithmetic on
scores is embedded over the exact rationals; machine integers are Nat/Int.

The body of HDRF::performStep splits into three phases, embedded
separately:
- the lock-acquisition phase (lines 82-104): lockAttempt;
- the critical section (lines 106-201): performStepCore, which computes
  the scores, picks a candidate and applies all state updates;
- the lock call sequence of a completed call (lines 86, 92, 204-205):
  lockTrace.
-/

/-- Modelled from the spec: the per-vertex Record (spec section 4.1) with a
degree counter, the set of partitions holding a replica, and the
exclusive-access lock flag.  The Record class itself is not among the
sources under verification; its contract is taken from the spec. -/
structure Record where
  degree : Nat
  partitions : Finset Nat
  locked : Bool
  deriving DecidableEq

/-- Modelled from the spec: Record.getDegree, a pure read of the degree counter. -/
def Record.getDegree (r : Record) : Nat := r.degree

/-- Modelled from the spec: Record.hasReplicaInPartition, a pure membership
query on the replica set. -/
def Record.hasReplicaInPartition (r : Record) (m : Nat) : Bool :=
  decide (m ∈ r.partitions)

/-- Modelled from the spec: Record.addPartition, an idempotent insert into the
replica set. -/
def Record.addPartition (r : Record) (m : Nat) : Record :=
  { r with partitions := insert m r.partitions }

/-- Modelled from the spec: Record.incrementDegree, a monotonic increment. -/
def Record.incrementDegree (r : Record) : Record :=
  { r with degree := r.degree + 1 }

/-- Modelled from the spec: the shared Partition State (spec sections 3 and
4.2) for a run whose vertex ids range over Fin n: the vertex records, the
per-partition edge-load and vertex-load counters, and the capability level
(extended = true is the coordinated level that tracks vertexLoad). -/
structure PartitionState (n : Nat) where
  records : Fin n → Record
  edgeLoad : Nat → Nat
  vertexLoad : Nat → Nat
  extended : Bool

variable {n : Nat}

/-- Modelled from the spec: PartitionState.getRecord (record lookup by id). -/
def PartitionState.getRecord (st : PartitionState n) (i : Fin n) : Record :=
  st.records i

/-- Modelled from the spec: PartitionState.getMachineLoad m = edgeLoad m. -/
def PartitionState.getMachineLoad (st : PartitionState n) (m : Nat) : Nat :=
  st.edgeLoad m

/-- Modelled from the spec: incrementMachineLoad m assigns the edge to
partition m by incrementing edgeLoad m. -/
def PartitionState.incrementMachineLoad (st : PartitionState n) (m : Nat) :
    PartitionState n :=
  { st with edgeLoad := Function.update st.edgeLoad m (st.edgeLoad m + 1) }

/-- Modelled from the spec: incrementMachineLoadVertices m (coordinated
capability) increments vertexLoad m. -/
def PartitionState.incrementMachineLoadVertices (st : PartitionState n) (m : Nat) :
    PartitionState n :=
  { st with vertexLoad := Function.update st.vertexLoad m (st.vertexLoad m + 1) }

/-- Apply a function to the record of vertex i (the shared_ptr aliasing of the
C++ code: u_record and v_record denote the same record when u = v). -/
def PartitionState.updRecord (st : PartitionState n) (i : Fin n) (f : Record → Record) :
    PartitionState n :=
  { st with records := Function.update st.records i (f (st.records i)) }

/-- Modelled from the spec: PartitionState.getMinLoad, the minimum of
edgeLoad over the P partitions, recomputed on demand (spec section 3). -/
def PartitionState.getMinLoad (st : PartitionState n) (P : Nat) : Nat :=
  match (List.range P).map st.edgeLoad with
  | [] => 0
  | x :: xs => xs.foldl min x

/-- Modelled from the spec: PartitionState.getMaxLoad, the maximum of
edgeLoad over the P partitions, recomputed on demand (spec section 3). -/
def PartitionState.getMaxLoad (st : PartitionState n) (P : Nat) : Nat :=
  match (List.range P).map st.edgeLoad with
  | [] => 0
  | x :: xs => xs.foldl max x

/-- The HDRF score of partition m, translated from HDRF.hpp lines 116-137:
degree_u = getDegree()+1, fu = 1 + (1 - degree_u/SUM) when u has a replica in
m (else 0), fv symmetric, bal = (MAX_LOAD - load)/(eps + MAX_LOAD - MIN_LOAD)
clamped at 0 from below, score = fu + fv + lambda * bal. -/
def hdrfScore (lam eps : ℚ) (uRec vRec : Record) (minLoad maxLoad load : Nat)
    (m : Nat) : ℚ :=
  let degree_u : ℚ := (uRec.getDegree : ℚ) + 1
  let degree_v : ℚ := (vRec.getDegree : ℚ) + 1
  let SUM : ℚ := degree_u + degree_v
  let fu : ℚ := if uRec.hasReplicaInPartition m then 1 + (1 - degree_u / SUM) else 0
  let fv : ℚ := if vRec.hasReplicaInPartition m then 1 + (1 - degree_v / SUM) else 0
  let bal0 : ℚ := ((maxLoad : ℚ) - (load : ℚ)) / (eps + (maxLoad : ℚ) - (minLoad : ℚ))
  let bal : ℚ := if bal0 < 0 then 0 else bal0
  fu + fv + lam * bal

/-- The spec's reference scoring definition (spec section 4.3, steps 3a-3e),
written from the spec's words for the refinement comparison of claim C1:
degU = u.degree()+1, degV = v.degree()+1, sum = degU+degV, fu = 0 unless u
has a replica in m (then 1 + (1 - degU/sum)), fv symmetric,
bal = max(0, (maxLoad - load)/(eps + maxLoad - minLoad)),
score = fu + fv + lam * bal. -/
def specScore (lam eps : ℚ) (uRec vRec : Record) (minLoad maxLoad load : Nat)
    (m : Nat) : ℚ :=
  let degU : ℚ := (uRec.getDegree : ℚ) + 1
  let degV : ℚ := (vRec.getDegree : ℚ) + 1
  let sum : ℚ := degU + degV
  let fu : ℚ := if uRec.hasReplicaInPartition m then 1 + (1 - degU / sum) else 0
  let fv : ℚ := if vRec.hasReplicaInPartition m then 1 + (1 - degV / sum) else 0
  let bal : ℚ := max 0 (((maxLoad : ℚ) - (load : ℚ)) / (eps + (maxLoad : ℚ) - (minLoad : ℚ)))
  fu + fv + lam * bal

/-- The two fatal error branches of performStep: a negative score
(HDRF.hpp lines 138-145) and an empty candidate list (lines 155-161). -/
inductive StepError where
  | negativeScore
  | emptyCandidates
  deriving DecidableEq

/-- The scoring loop of performStep (HDRF.hpp lines 115-153), one iteration
per partition index in the list: abort on a negative score, reset the
candidate list when the score strictly exceeds MAX_SCORE, append on an exact
tie, skip otherwise. -/
def scoringLoop (score : Nat → ℚ) : List Nat → ℚ → List Nat →
    Except StepError (ℚ × List Nat)
  | [], maxScore, candidates => .ok (maxScore, candidates)
  | m :: ms, maxScore, candidates =>
    let s := score m
    if s < 0 then .error .negativeScore
    else if maxScore < s then scoringLoop score ms s [m]
    else if s = maxScore then scoringLoop score ms maxScore (candidates ++ [m])
    else scoringLoop score ms maxScore candidates

/-- The score function used inside performStep for a given state and edge
(u, v): MIN_LOAD and MAX_LOAD are snapshot once (lines 109-110), the load of
partition m is read per iteration (line 131). -/
def stepScore (lam eps : ℚ) (u v : Fin n) (st : PartitionState n) (P : Nat)
    (m : Nat) : ℚ :=
  hdrfScore lam eps (st.getRecord u) (st.getRecord v)
    (st.getMinLoad P) (st.getMaxLoad P) (st.getMachineLoad m) m

/-- One endpoint of the replica-set update (HDRF.hpp lines 177-180 / 181-184
in the try branch, 188-190 / 191-193 in the catch branch): if w's record has
no replica in machine_id yet, addPartition it, and in the try branch
(withVertexLoad = true) also call incrementMachineLoadVertices. -/
def condAddReplica (withVertexLoad : Bool) (machine_id : Nat) (w : Fin n)
    (st : PartitionState n) : PartitionState n :=
  if (st.getRecord w).hasReplicaInPartition machine_id then st
  else if withVertexLoad then
    (st.updRecord w (fun q => q.addPartition machine_id)).incrementMachineLoadVertices machine_id
  else st.updRecord w (fun q => q.addPartition machine_id)

/-- The replica-set / vertex-load update phase (HDRF.hpp lines 172-194),
u's endpoint first, then v's against the already-updated state (u_record and
v_record alias the same record when u = v).  castThrows models whether the
std::static_pointer_cast on line 173 raises std::bad_cast; in C++ a static
cast never throws, so the faithful instantiation is castThrows = false and
the catch branch (lines 185-194, which skips the vertex-load bookkeeping) is
dead code. -/
def updateReplicas (castThrows : Bool) (machine_id : Nat) (u v : Fin n)
    (st : PartitionState n) : PartitionState n :=
  if castThrows then
    condAddReplica false machine_id v (condAddReplica false machine_id u st)
  else
    condAddReplica true machine_id v (condAddReplica true machine_id u st)

/-- The full state update of a completed performStep call once machine_id is
chosen (HDRF.hpp lines 172-201): replica updates, then incrementMachineLoad,
then incrementDegree on u_record and on v_record (the same record twice when
u = v). -/
def applyUpdates (castThrows : Bool) (machine_id : Nat) (u v : Fin n)
    (st : PartitionState n) : PartitionState n :=
  (((updateReplicas castThrows machine_id u v st).incrementMachineLoad
      machine_id).updRecord u Record.incrementDegree).updRecord v
    Record.incrementDegree

/-- The critical section of performStep (HDRF.hpp lines 106-201), entered
with both endpoint locks held.  P is the int GLOBALS.numberOfPartition, r the
value drawn from the random source on line 170; the partition chosen is
candidates.at(r % candidates.size()).  Returns the updated state and the
chosen partition, or the fatal error branch taken. -/
def performStepCore (castThrows : Bool) (P : Int) (lam eps : ℚ) (r : Nat)
    (u v : Fin n) (st : PartitionState n) :
    Except StepError (PartitionState n × Nat) :=
  match scoringLoop (stepScore lam eps u v st P.toNat) (List.range P.toNat) 0 [] with
  | .error e => .error e
  | .ok (_, candidates) =>
    match candidates with
    | [] => .error .emptyCandidates
    | c :: cs =>
      let machine_id := (c :: cs).getD (r % (c :: cs).length) 0
      .ok (applyUpdates castThrows machine_id u v st, machine_id)

theorem scoringLoop_ok_spec (score : Nat → ℚ) (l : List Nat) :
    ∀ (mx0 : ℚ) (c0 : List Nat) (mx : ℚ) (c : List Nat),
      scoringLoop score l mx0 c0 = .ok (mx, c) →
      mx0 ≤ mx ∧
      (∀ m ∈ l, 0 ≤ score m ∧ score m ≤ mx) ∧
      (mx = mx0 ∨ ∃ k ∈ l, score k = mx) ∧
      (∀ m, m ∈ c ↔ ((m ∈ c0 ∧ mx = mx0) ∨ (m ∈ l ∧ score m = mx))) := by
  induction l with
  | nil =>
    intro mx0 c0 mx c h
    simp only [scoringLoop, Except.ok.injEq, Prod.mk.injEq] at h
    obtain ⟨h1, h2⟩ := h
    subst h1; subst h2
    refine ⟨le_refl _, by simp, Or.inl rfl, fun m => ?_⟩
    simp
  | cons a as ih =>
    intro mx0 c0 mx c h
    simp only [scoringLoop] at h
    by_cases hneg : score a < 0
    · simp [hneg] at h
    · rw [if_neg hneg] at h
      by_cases hgt : mx0 < score a
      · rw [if_pos hgt] at h
        obtain ⟨hle, hall, hatt, hmem⟩ := ih _ _ _ _ h
        refine ⟨le_trans (le_of_lt hgt) hle, ?_, ?_, ?_⟩
        · intro m hm
          rcases List.mem_cons.mp hm with hma | hm
          · exact ⟨by rw [hma]; exact le_of_not_lt hneg, by rw [hma]; exact hle⟩
          · exact hall m hm
        · rcases hatt with hatt | ⟨k, hk, hks⟩
          · exact Or.inr ⟨a, List.mem_cons_self a as, hatt.symm⟩
          · exact Or.inr ⟨k, List.mem_cons_of_mem a hk, hks⟩
        · intro m
          rw [hmem m]
          constructor
          · rintro (⟨hm, hmx⟩ | ⟨hm, hms⟩)
            · have hma := List.mem_singleton.mp hm
              exact Or.inr ⟨by rw [hma]; exact List.mem_cons_self a as, by rw [hma, ← hmx]⟩
            · exact Or.inr ⟨List.mem_cons_of_mem a hm, hms⟩
          · rintro (⟨hm, hmx⟩ | ⟨hm, hms⟩)
            · exact absurd hmx (ne_of_gt (lt_of_lt_of_le hgt hle))
            · rcases List.mem_cons.mp hm with hma | hm
              · exact Or.inl ⟨List.mem_singleton.mpr hma, by rw [← hms, hma]⟩
              · exact Or.inr ⟨hm, hms⟩
      · rw [if_neg hgt] at h
        by_cases heq : score a = mx0
        · rw [if_pos heq] at h
          obtain ⟨hle, hall, hatt, hmem⟩ := ih _ _ _ _ h
          refine ⟨hle, ?_, ?_, ?_⟩
          · intro m hm
            rcases List.mem_cons.mp hm with hma | hm
            · exact ⟨by rw [hma]; exact le_of_not_lt hneg, by rw [hma, heq]; exact hle⟩
            · exact hall m hm
          · rcases hatt with hatt | ⟨k, hk, hks⟩
            · exact Or.inl hatt
            · exact Or.inr ⟨k, List.mem_cons_of_mem a hk, hks⟩
          · intro m
            rw [hmem m]
            constructor
            · rintro (⟨hm, hmx⟩ | ⟨hm, hms⟩)
              · rcases List.mem_append.mp hm with hm | hm
                · exact Or.inl ⟨hm, hmx⟩
                · have hma := List.mem_singleton.mp hm
                  exact Or.inr ⟨by rw [hma]; exact List.mem_cons_self a as,
                    by rw [hma, heq, hmx]⟩
              · exact Or.inr ⟨List.mem_cons_of_mem a hm, hms⟩
            · rintro (⟨hm, hmx⟩ | ⟨hm, hms⟩)
              · exact Or.inl ⟨List.mem_append_left _ hm, hmx⟩
              · rcases List.mem_cons.mp hm with hma | hm
                · have hmx0 : mx = mx0 := by rw [← heq, ← hma, hms]
                  exact Or.inl ⟨List.mem_append_right _ (List.mem_singleton.mpr hma), hmx0⟩
                · exact Or.inr ⟨hm, hms⟩
        · rw [if_neg heq] at h
          obtain ⟨hle, hall, hatt, hmem⟩ := ih _ _ _ _ h
          have halt : score a < mx0 := lt_of_le_of_ne (le_of_not_lt hgt) heq
          refine ⟨hle, ?_, ?_, ?_⟩
          · intro m hm
            rcases List.mem_cons.mp hm with hma | hm
            · exact ⟨by rw [hma]; exact le_of_not_lt hneg,
                by rw [hma]; exact le_trans (le_of_lt halt) hle⟩
            · exact hall m hm
          · rcases hatt with hatt | ⟨k, hk, hks⟩
            · exact Or.inl hatt
            · exact Or.inr ⟨k, List.mem_cons_of_mem a hk, hks⟩
          · intro m
            rw [hmem m]
            constructor
            · rintro (⟨hm, hmx⟩ | ⟨hm, hms⟩)
              · exact Or.inl ⟨hm, hmx⟩
              · exact Or.inr ⟨List.mem_cons_of_mem a hm, hms⟩
            · rintro (⟨hm, hmx⟩ | ⟨hm, hms⟩)
              · exact Or.inl ⟨hm, hmx⟩
              · rcases List.mem_cons.mp hm with hma | hm
                · exact absurd (by rw [← hma]; exact hms)
                    (ne_of_lt (lt_of_lt_of_le halt hle))
                · exact Or.inr ⟨hm, hms⟩

theorem scoringLoop_error_only_negative (score : Nat → ℚ) (l : List Nat) :
    ∀ (mx0 : ℚ) (c0 : List Nat) (e : StepError),
      scoringLoop score l mx0 c0 = .error e → e = .negativeScore := by
  induction l with
  | nil => intro mx0 c0 e h; simp [scoringLoop] at h
  | cons a as ih =>
    intro mx0 c0 e h
    simp only [scoringLoop] at h
    by_cases hneg : score a < 0
    · rw [if_pos hneg] at h
      exact (Except.error.injEq _ _ ▸ h).symm
    · rw [if_neg hneg] at h
      by_cases hgt : mx0 < score a
      · rw [if_pos hgt] at h; exact ih _ _ _ h
      · rw [if_neg hgt] at h
        by_cases heq : score a = mx0
        · rw [if_pos heq] at h; exact ih _ _ _ h
        · rw [if_neg heq] at h; exact ih _ _ _ h

theorem scoringLoop_ok_of_nonneg (score : Nat → ℚ) (l : List Nat)
    (hpos : ∀ m ∈ l, 0 ≤ score m) :
    ∀ (mx0 : ℚ) (c0 : List Nat), ∃ p, scoringLoop score l mx0 c0 = .ok p := by
  induction l with
  | nil => intro mx0 c0; exact ⟨(mx0, c0), rfl⟩
  | cons a as ih =>
    intro mx0 c0
    have ha : ¬ score a < 0 := not_lt.mpr (hpos a (List.mem_cons_self a as))
    have ih := ih (fun m hm => hpos m (List.mem_cons_of_mem a hm))
    simp only [scoringLoop, if_neg ha]
    by_cases hgt : mx0 < score a
    · rw [if_pos hgt]; exact ih _ _
    · rw [if_neg hgt]
      by_cases heq : score a = mx0
      · rw [if_pos heq]; exact ih _ _
      · rw [if_neg heq]; exact ih _ _

/-- Consequences for the scoring loop as started by performStep (initial
MAX_SCORE = 0, empty candidate list): on success with at least one
partition, the candidate list is exactly the set of argmax partitions and is
non-empty. -/
theorem scoringLoop_range_ok (score : Nat → ℚ) (P : Nat) (mx : ℚ) (c : List Nat)
    (hP : 1 ≤ P)
    (h : scoringLoop score (List.range P) 0 [] = .ok (mx, c)) :
    (∀ m, m ∈ c ↔ (m < P ∧ score m = mx)) ∧
    (∀ m, m < P → score m ≤ mx) ∧ c ≠ [] := by
  obtain ⟨hle, hall, hatt, hmem⟩ := scoringLoop_ok_spec score (List.range P) 0 [] mx c h
  have hmem2 : ∀ m, m ∈ c ↔ (m < P ∧ score m = mx) := by
    intro m
    rw [hmem m]
    simp [List.mem_range]
  refine ⟨hmem2, fun m hm => (hall m (List.mem_range.mpr hm)).2, ?_⟩
  have h0 : (0 : Nat) ∈ List.range P := List.mem_range.mpr hP
  have hattained : ∃ k, k < P ∧ score k = mx := by
    rcases hatt with hatt | ⟨k, hk, hks⟩
    · refine ⟨0, hP, ?_⟩
      have h1 := (hall 0 h0).1
      have h2 := (hall 0 h0).2
      exact le_antisymm h2 (hatt ▸ h1)
    · exact ⟨k, List.mem_range.mp hk, hks⟩
  obtain ⟨k, hk⟩ := hattained
  intro hc
  exact (List.not_mem_nil k) (hc ▸ (hmem2 k).mpr hk)

/-- C1: for every edge, every partition m, and any state of the two endpoint
records and load counters, the score computed by performStep equals the
spec's reference definition. -/
theorem hdrf_score_refines_spec (lam eps : ℚ) (uRec vRec : Record)
    (minLoad maxLoad load : Nat) (m : Nat) :
    hdrfScore lam eps uRec vRec minLoad maxLoad load m =
      specScore lam eps uRec vRec minLoad maxLoad load m := by
  unfold hdrfScore specScore
  rcases le_or_lt 0 (((maxLoad : ℚ) - (load : ℚ)) / (eps + (maxLoad : ℚ) - (minLoad : ℚ))) with h | h
  · simp [max_eq_right h, not_lt.mpr h]
  · simp [max_eq_left (le_of_lt h), h]

/-- Outcome of one pass through the lock-acquisition phase: both locks held,
or backoff-triggered restart of the whole performStep call. -/
inductive LockOutcome (n : Nat) where
  | locked (st : PartitionState n)
  | restart (st : PartitionState n)

/-- Set the lock flag of vertex i's record. -/
def PartitionState.setLock (st : PartitionState n) (i : Fin n) (b : Bool) :
    PartitionState n :=
  st.updRecord i (fun r => { r with locked := b })

/-- One attempt of the lock-acquisition phase (HDRF.hpp lines 82-104): spin
until u_record's lock is obtained; when u ≠ v, spin for v_record's lock with
exponentially growing backoff, and when the backoff exceeds
GLOBALS.SLEEP_LIMIT release u's lock and restart performStep from scratch
(lines 96-100).  vTimesOut abstracts whether that backoff ceiling is
exceeded before v's lock is obtained; failing tryAcquireLock polls
themselves mutate nothing. -/
def lockAttempt (u v : Fin n) (vTimesOut : Bool) (st : PartitionState n) :
    LockOutcome n :=
  let st1 := st.setLock u true
  if u ≠ v ∧ vTimesOut then .restart (st1.setLock u false)
  else if u = v then .locked st1
  else .locked (st1.setLock v true)

/-- One Record lock call, as issued by performStep. -/
inductive LockEvent (n : Nat) where
  | acquire (i : Fin n)
  | release (i : Fin n)
  deriving DecidableEq

/-- The sequence of Record lock calls made by a completed (non-restarting)
performStep call (HDRF.hpp lines 86, 91-92, 204-205): getLock on u_record,
getLock on v_record only when u ≠ v, then releaseLock on u_record and
releaseLock on v_record, both unconditionally. -/
def lockTrace (u v : Fin n) : List (LockEvent n) :=
  [LockEvent.acquire u] ++ (if u ≠ v then [LockEvent.acquire v] else []) ++
    [LockEvent.release u, LockEvent.release v]

/-- Number of getLock calls on record i in a lock-call trace. -/
def countAcquires (i : Fin n) (tr : List (LockEvent n)) : Nat :=
  tr.countP (fun ev => ev == LockEvent.acquire i)

/-- Number of releaseLock calls on record i in a lock-call trace. -/
def countReleases (i : Fin n) (tr : List (LockEvent n)) : Nat :=
  tr.countP (fun ev => ev == LockEvent.release i)

/-- The lock-free observable shared data of a partition state: degrees,
replica sets, edge loads and vertex loads (everything but the lock flags). -/
def obsData (st : PartitionState n) :
    (Nat → Nat) × (Nat → Nat) × (Fin n → Nat × Finset Nat) :=
  (st.edgeLoad, st.vertexLoad,
    fun i => ((st.records i).degree, (st.records i).partitions))

theorem obsData_setLock (st : PartitionState n) (i : Fin n) (b : Bool) :
    obsData (st.setLock i b) = obsData st := by
  unfold obsData PartitionState.setLock PartitionState.updRecord
  refine congrArg _ (congrArg _ ?_)
  funext j
  by_cases hj : j = i
  · subst hj; simp [Function.update_same]
  · simp [Function.update_noteq hj]

/-- C7: the lock-acquisition phase mutates no shared state: on success the
degrees, replica sets, edge loads and vertex loads are untouched, and on a
backoff-triggered restart the whole state (lock flag of u included, which
was free before this caller took it) is exactly as before the attempt. -/
theorem hdrf_lock_phase_no_mutation (u v : Fin n) (vTimesOut : Bool)
    (st : PartitionState n) (hu : (st.records u).locked = false) :
    (∀ st1, lockAttempt u v vTimesOut st = .locked st1 → obsData st1 = obsData st) ∧
    (∀ st1, lockAttempt u v vTimesOut st = .restart st1 → st1 = st) := by
  have hr : ∀ r : Record, r.locked = false →
      ({ r with locked := false } : Record) = r := by
    intro r h
    cases r
    subst h
    rfl
  have hre : (st.setLock u true).setLock u false = st := by
    unfold PartitionState.setLock PartitionState.updRecord
    simp only [Function.update_same, Function.update_idem]
    rw [hr (st.records u) hu, Function.update_eq_self]
  constructor
  · intro st1 h
    unfold lockAttempt at h
    by_cases hc : u ≠ v ∧ vTimesOut
    · simp [hc] at h
    · rw [if_neg hc] at h
      by_cases huv : u = v
      · rw [if_pos huv] at h
        cases h
        exact obsData_setLock st u true
      · rw [if_neg huv] at h
        cases h
        rw [obsData_setLock, obsData_setLock]
  · intro st1 h
    unfold lockAttempt at h
    by_cases hc : u ≠ v ∧ vTimesOut
    · rw [if_pos hc] at h
      cases h
      exact hre
    · rw [if_neg hc] at h
      by_cases huv : u = v
      · rw [if_pos huv] at h; cases h
      · rw [if_neg huv] at h; cases h

theorem getD_mem_of_lt {l : List Nat} {i : Nat} (h : i < l.length) (d : Nat) :
    l.getD i d ∈ l := by
  induction l generalizing i with
  | nil => simp at h
  | cons a as ih =>
    cases i with
    | zero => simp [List.getD]
    | succ j =>
      have hj : j < as.length := Nat.lt_of_succ_lt_succ h
      simp only [List.getD_cons_succ]
      exact List.mem_cons_of_mem a (ih hj)

/-- Inversion of a successful performStepCore call: the scoring loop
succeeded, the chosen partition is a member of the non-empty candidate
list, and the resulting state is applyUpdates at that partition. -/
theorem performStepCore_ok_inv {castThrows : Bool} {P : Int} {lam eps : ℚ}
    {r : Nat} {u v : Fin n} {st st1 : PartitionState n} {mid : Nat}
    (h : performStepCore castThrows P lam eps r u v st = .ok (st1, mid)) :
    ∃ mx c, scoringLoop (stepScore lam eps u v st P.toNat)
        (List.range P.toNat) 0 [] = .ok (mx, c) ∧
      c ≠ [] ∧ mid ∈ c ∧ st1 = applyUpdates castThrows mid u v st := by
  unfold performStepCore at h
  rcases hres : scoringLoop (stepScore lam eps u v st P.toNat)
      (List.range P.toNat) 0 [] with e | ⟨mx, c⟩
  · rw [hres] at h
    simp at h
  · rw [hres] at h
    rcases c with _ | ⟨a, as⟩
    · simp at h
    · simp only [Except.ok.injEq, Prod.mk.injEq] at h
      obtain ⟨h1, h2⟩ := h
      refine ⟨mx, a :: as, rfl, by simp, ?_, ?_⟩
      · rw [← h2]
        exact getD_mem_of_lt (Nat.mod_lt _ (by simp)) 0
      · rw [← h1, ← h2]


theorem hasReplicaInPartition_iff (q : Record) (m : Nat) :
    q.hasReplicaInPartition m = true ↔ m ∈ q.partitions := by
  simp [Record.hasReplicaInPartition]

theorem condAddReplica_degree (b : Bool) (mid : Nat) (w : Fin n)
    (st : PartitionState n) (i : Fin n) :
    ((condAddReplica b mid w st).records i).degree = (st.records i).degree := by
  unfold condAddReplica PartitionState.incrementMachineLoadVertices
    PartitionState.updRecord Record.addPartition
  split_ifs <;> try rfl
  all_goals
    by_cases hi : i = w
    · subst hi; simp [Function.update_same]
    · simp [Function.update_noteq hi]

theorem condAddReplica_edgeLoad (b : Bool) (mid : Nat) (w : Fin n)
    (st : PartitionState n) :
    (condAddReplica b mid w st).edgeLoad = st.edgeLoad := by
  unfold condAddReplica
  split_ifs <;> rfl

theorem updateReplicas_degree (ct : Bool) (mid : Nat) (u v : Fin n)
    (st : PartitionState n) (i : Fin n) :
    ((updateReplicas ct mid u v st).records i).degree = (st.records i).degree := by
  unfold updateReplicas
  split_ifs <;> rw [condAddReplica_degree, condAddReplica_degree]

theorem updateReplicas_edgeLoad (ct : Bool) (mid : Nat) (u v : Fin n)
    (st : PartitionState n) :
    (updateReplicas ct mid u v st).edgeLoad = st.edgeLoad := by
  unfold updateReplicas
  split_ifs <;> rw [condAddReplica_edgeLoad, condAddReplica_edgeLoad]

theorem applyUpdates_degree_self (ct : Bool) (mid : Nat) (u : Fin n)
    (st : PartitionState n) :
    ((applyUpdates ct mid u u st).records u).degree = (st.records u).degree + 2 := by
  unfold applyUpdates PartitionState.updRecord PartitionState.incrementMachineLoad
  simp only [Function.update_same, Function.update_idem, Record.incrementDegree]
  rw [updateReplicas_degree]

theorem applyUpdates_degree_ne (ct : Bool) (mid : Nat) (u v : Fin n)
    (huv : u ≠ v) (st : PartitionState n) :
    ((applyUpdates ct mid u v st).records u).degree = (st.records u).degree + 1 ∧
    ((applyUpdates ct mid u v st).records v).degree = (st.records v).degree + 1 := by
  unfold applyUpdates PartitionState.updRecord PartitionState.incrementMachineLoad
  constructor
  · simp only [Function.update_noteq huv, Function.update_same, Record.incrementDegree]
    rw [updateReplicas_degree]
  · simp only [Function.update_same, Function.update_noteq (Ne.symm huv),
      Record.incrementDegree]
    rw [updateReplicas_degree]

/-- Total edge load over the P partitions (the quantity of the spec
invariant: sum of edgeLoad over all partitions). -/
def sumEdgeLoad (P : Nat) (st : PartitionState n) : Nat :=
  ∑ m ∈ Finset.range P, st.edgeLoad m

theorem sumEdgeLoad_congr {P : Nat} {st1 st2 : PartitionState n}
    (h : st1.edgeLoad = st2.edgeLoad) : sumEdgeLoad P st1 = sumEdgeLoad P st2 := by
  unfold sumEdgeLoad
  rw [h]

theorem sumEdgeLoad_incrementMachineLoad (st : PartitionState n) {mid P : Nat}
    (hm : mid < P) :
    sumEdgeLoad P (st.incrementMachineLoad mid) = sumEdgeLoad P st + 1 := by
  unfold sumEdgeLoad PartitionState.incrementMachineLoad
  simp only []
  rw [Finset.sum_update_of_mem (Finset.mem_range.mpr hm)]
  rw [Finset.sum_eq_sum_diff_singleton_add (Finset.mem_range.mpr hm) st.edgeLoad]
  omega

theorem applyUpdates_edgeLoad_sum (ct : Bool) {mid P : Nat} (u v : Fin n)
    (st : PartitionState n) (hm : mid < P) :
    sumEdgeLoad P (applyUpdates ct mid u v st) = sumEdgeLoad P st + 1 := by
  unfold applyUpdates
  have h1 : sumEdgeLoad P
      ((((updateReplicas ct mid u v st).incrementMachineLoad mid).updRecord u
        Record.incrementDegree).updRecord v Record.incrementDegree) =
      sumEdgeLoad P ((updateReplicas ct mid u v st).incrementMachineLoad mid) :=
    sumEdgeLoad_congr rfl
  rw [h1, sumEdgeLoad_incrementMachineLoad _ hm,
    sumEdgeLoad_congr (updateReplicas_edgeLoad ct mid u v st)]

theorem mem_candidates_lt {lam eps : ℚ} {u v : Fin n} {st : PartitionState n}
    {P : Nat} {mx : ℚ} {c : List Nat} {m : Nat}
    (hres : scoringLoop (stepScore lam eps u v st P) (List.range P) 0 [] = .ok (mx, c))
    (hm : m ∈ c) : m < P := by
  obtain ⟨_, _, _, hmem⟩ := scoringLoop_ok_spec _ _ _ _ _ _ hres
  rcases (hmem m).mp hm with ⟨hn, _⟩ | ⟨hr, _⟩
  · exact absurd hn (List.not_mem_nil m)
  · exact List.mem_range.mp hr

/-- Sequential driver: performStep on each edge (u, v, random draw) of the
stream in turn; none models a run aborted by one of the fatal branches. -/
def runEdges (castThrows : Bool) (P : Int) (lam eps : ℚ) :
    List (Fin n × Fin n × Nat) → PartitionState n → Option (PartitionState n)
  | [], st => some st
  | e :: es, st =>
    match performStepCore castThrows P lam eps e.2.2 e.1 e.2.1 st with
    | .error _ => none
    | .ok (st1, _) => runEdges castThrows P lam eps es st1

/-- C9: each completed performStep call raises the edge load of exactly the
chosen partition (which lies in range) by one and no other, so the total
edge load after a sequence of completed calls is the initial total plus the
number of edges processed. -/
theorem hdrf_edge_load_sum_invariant (castThrows : Bool) (P : Int) (lam eps : ℚ) :
    (∀ (r : Nat) (u v : Fin n) (st st1 : PartitionState n) (mid : Nat),
      performStepCore castThrows P lam eps r u v st = .ok (st1, mid) →
      mid < P.toNat ∧ st1.edgeLoad mid = st.edgeLoad mid + 1 ∧
        (∀ m, m ≠ mid → st1.edgeLoad m = st.edgeLoad m) ∧
        sumEdgeLoad P.toNat st1 = sumEdgeLoad P.toNat st + 1) ∧
    (∀ (es : List (Fin n × Fin n × Nat)) (st st1 : PartitionState n),
      runEdges castThrows P lam eps es st = some st1 →
      sumEdgeLoad P.toNat st1 = sumEdgeLoad P.toNat st + es.length) := by
  have step : ∀ (r : Nat) (u v : Fin n) (st st1 : PartitionState n) (mid : Nat),
      performStepCore castThrows P lam eps r u v st = .ok (st1, mid) →
      mid < P.toNat ∧ st1.edgeLoad mid = st.edgeLoad mid + 1 ∧
        (∀ m, m ≠ mid → st1.edgeLoad m = st.edgeLoad m) ∧
        sumEdgeLoad P.toNat st1 = sumEdgeLoad P.toNat st + 1 := by
    intro r u v st st1 mid h
    obtain ⟨mx, c, hres, hne, hmid, hst⟩ := performStepCore_ok_inv h
    have hlt : mid < P.toNat := mem_candidates_lt hres hmid
    subst hst
    refine ⟨hlt, ?_, ?_, applyUpdates_edgeLoad_sum castThrows u v st hlt⟩
    · show (Function.update (updateReplicas castThrows mid u v st).edgeLoad mid
        ((updateReplicas castThrows mid u v st).edgeLoad mid + 1)) mid = _
      rw [Function.update_same, updateReplicas_edgeLoad]
    · intro m hm
      show (Function.update (updateReplicas castThrows mid u v st).edgeLoad mid
        ((updateReplicas castThrows mid u v st).edgeLoad mid + 1)) m = _
      rw [Function.update_noteq hm, updateReplicas_edgeLoad]
  refine ⟨step, ?_⟩
  intro es
  induction es with
  | nil =>
    intro st st1 h
    simp only [runEdges, Option.some.injEq] at h
    subst h
    simp
  | cons e es ih =>
    intro st st1 h
    simp only [runEdges] at h
    rcases hr : performStepCore castThrows P lam eps e.2.2 e.1 e.2.1 st with err | ⟨st2, mid⟩
    · rw [hr] at h; simp at h
    · rw [hr] at h
      have hsum2 := (step e.2.2 e.1 e.2.1 st st2 mid hr).2.2.2
      have := ih st2 st1 h
      rw [this, hsum2]
      simp [List.length_cons]
      omega

/-- C2 (amended): a completed performStep call on a self-loop (u, u)
increments u's degree by exactly 2 (both endpoint increments hit the same
record), and on an edge with u ≠ v increments each endpoint's degree by
exactly 1. -/
theorem hdrf_degree_increment_amended (castThrows : Bool) (P : Int)
    (lam eps : ℚ) (r : Nat) (u v : Fin n) (st st1 : PartitionState n) (mid : Nat)
    (h : performStepCore castThrows P lam eps r u v st = .ok (st1, mid)) :
    (u = v → (st1.records u).degree = (st.records u).degree + 2) ∧
    (u ≠ v → (st1.records u).degree = (st.records u).degree + 1 ∧
      (st1.records v).degree = (st.records v).degree + 1) := by
  obtain ⟨mx, c, hres, hne, hmid, hst⟩ := performStepCore_ok_inv h
  subst hst
  constructor
  · intro huv
    subst huv
    exact applyUpdates_degree_self castThrows mid u st
  · intro huv
    exact applyUpdates_degree_ne castThrows mid u v huv st

theorem hdrfScore_nonneg (lam eps : ℚ) (uRec vRec : Record)
    (minL maxL load m : Nat) (hlam : 0 ≤ lam) :
    0 ≤ hdrfScore lam eps uRec vRec minL maxL load m := by
  unfold hdrfScore
  have hSUM : (0 : ℚ) < ((uRec.getDegree : ℚ) + 1) + ((vRec.getDegree : ℚ) + 1) := by
    positivity
  have hfu : (0 : ℚ) ≤ if uRec.hasReplicaInPartition m then
      1 + (1 - ((uRec.getDegree : ℚ) + 1) /
        (((uRec.getDegree : ℚ) + 1) + ((vRec.getDegree : ℚ) + 1))) else 0 := by
    split_ifs
    · have hle : ((uRec.getDegree : ℚ) + 1) /
          (((uRec.getDegree : ℚ) + 1) + ((vRec.getDegree : ℚ) + 1)) ≤ 1 := by
        rw [div_le_one hSUM]
        have : (0 : ℚ) ≤ (vRec.getDegree : ℚ) + 1 := by positivity
        linarith
      linarith
    · exact le_refl 0
  have hfv : (0 : ℚ) ≤ if vRec.hasReplicaInPartition m then
      1 + (1 - ((vRec.getDegree : ℚ) + 1) /
        (((uRec.getDegree : ℚ) + 1) + ((vRec.getDegree : ℚ) + 1))) else 0 := by
    split_ifs
    · have hle : ((vRec.getDegree : ℚ) + 1) /
          (((uRec.getDegree : ℚ) + 1) + ((vRec.getDegree : ℚ) + 1)) ≤ 1 := by
        rw [div_le_one hSUM]
        have : (0 : ℚ) ≤ (uRec.getDegree : ℚ) + 1 := by positivity
        linarith
      linarith
    · exact le_refl 0
  have hbal : (0 : ℚ) ≤ if ((maxL : ℚ) - (load : ℚ)) /
        (eps + (maxL : ℚ) - (minL : ℚ)) < 0 then 0
      else ((maxL : ℚ) - (load : ℚ)) / (eps + (maxL : ℚ) - (minL : ℚ)) := by
    split_ifs with hb
    · exact le_refl 0
    · exact le_of_not_lt hb
  have := mul_nonneg hlam hbal
  linarith

/-- C4: with eps > 0, lambda >= 0 and a consistent load snapshot
(minLoad <= maxLoad), every score computed by the scoring loop is
non-negative and the fatal negative-score branch of performStep is
unreachable. -/
theorem hdrf_negative_score_unreachable (castThrows : Bool) (P : Int)
    (lam eps : ℚ) (r : Nat) (u v : Fin n) (st : PartitionState n)
    (heps : 0 < eps) (hlam : 0 ≤ lam)
    (hload : st.getMinLoad P.toNat ≤ st.getMaxLoad P.toNat) :
    (∀ m, 0 ≤ stepScore lam eps u v st P.toNat m) ∧
    performStepCore castThrows P lam eps r u v st ≠ .error .negativeScore := by
  have hpos : ∀ m, 0 ≤ stepScore lam eps u v st P.toNat m := fun m =>
    hdrfScore_nonneg lam eps _ _ _ _ _ m hlam
  refine ⟨hpos, ?_⟩
  unfold performStepCore
  obtain ⟨⟨mx, c⟩, hok⟩ :=
    scoringLoop_ok_of_nonneg (stepScore lam eps u v st P.toNat)
      (List.range P.toNat) (fun m _ => hpos m) 0 []
  rw [hok]
  rcases c with _ | ⟨a, as⟩ <;> simp

/-- C5: performStep takes the fatal empty-candidate-set branch exactly when
P < 1: with at least one partition the candidate list is never empty, and
with P < 1 the scoring loop runs zero iterations and the run aborts. -/
theorem hdrf_empty_candidates_iff (castThrows : Bool) (P : Int) (lam eps : ℚ)
    (r : Nat) (u v : Fin n) (st : PartitionState n) :
    performStepCore castThrows P lam eps r u v st = .error .emptyCandidates ↔
      P < 1 := by
  constructor
  · intro h
    by_contra hP
    have hP1 : 1 ≤ P.toNat := by omega
    unfold performStepCore at h
    rcases hres : scoringLoop (stepScore lam eps u v st P.toNat)
        (List.range P.toNat) 0 [] with e | ⟨mx, c⟩
    · rw [hres] at h
      simp only [Except.error.injEq] at h
      subst h
      have h2 := scoringLoop_error_only_negative _ _ _ _ _ hres
      cases h2
    · rw [hres] at h
      obtain ⟨hmem, hub, hne⟩ := scoringLoop_range_ok _ _ _ _ hP1 hres
      rcases c with _ | ⟨a, as⟩
      · exact hne rfl
      · simp at h
  · intro hP
    have h0 : P.toNat = 0 := by omega
    unfold performStepCore
    rw [h0]
    rfl

/-- C6: on every completed call (any P >= 1, any random draw r), the
candidate list collected by the scoring loop holds exactly the partitions
in [0, P) attaining the maximum score (all ties kept), and the chosen
partition is one of them. -/
theorem hdrf_candidates_argmax (castThrows : Bool) (P : Int) (lam eps : ℚ)
    (r : Nat) (u v : Fin n) (st st1 : PartitionState n) (mid : Nat)
    (hP : 1 ≤ P)
    (h : performStepCore castThrows P lam eps r u v st = .ok (st1, mid)) :
    ∃ mx c, scoringLoop (stepScore lam eps u v st P.toNat)
        (List.range P.toNat) 0 [] = .ok (mx, c) ∧
      (∀ m, m ∈ c ↔ (m < P.toNat ∧ stepScore lam eps u v st P.toNat m = mx)) ∧
      (∀ m, m < P.toNat → stepScore lam eps u v st P.toNat m ≤ mx) ∧
      mid ∈ c := by
  obtain ⟨mx, c, hres, hne, hmid, hst⟩ := performStepCore_ok_inv h
  have hP1 : 1 ≤ P.toNat := by omega
  obtain ⟨hmem, hub, _⟩ := scoringLoop_range_ok _ _ _ _ hP1 hres
  exact ⟨mx, c, hres, hmem, hub, hmid⟩

/-- The coordinated invariant of the spec: for every partition m, vertexLoad
m equals the number of vertices whose replica set contains m. -/
def vertexLoadInv (st : PartitionState n) : Prop :=
  ∀ m, st.vertexLoad m =
    (Finset.univ.filter (fun i : Fin n => m ∈ (st.records i).partitions)).card

theorem vertexLoadInv_of_same (st1 st2 : PartitionState n)
    (hv : st1.vertexLoad = st2.vertexLoad)
    (hp : ∀ i, (st1.records i).partitions = (st2.records i).partitions)
    (h : vertexLoadInv st1) : vertexLoadInv st2 := by
  intro m
  rw [← hv, h m]
  congr 1
  apply Finset.filter_congr
  intro i _
  rw [hp i]

theorem condAddReplica_inv (mid : Nat) (w : Fin n) (st : PartitionState n)
    (hinv : vertexLoadInv st) : vertexLoadInv (condAddReplica true mid w st) := by
  unfold condAddReplica
  by_cases hw : (st.getRecord w).hasReplicaInPartition mid
  · rw [if_pos hw]
    exact hinv
  · rw [if_neg hw, if_pos rfl]
    have hwmem : mid ∉ (st.records w).partitions := by
      intro hc
      exact hw ((hasReplicaInPartition_iff _ _).mpr hc)
    intro m
    show Function.update st.vertexLoad mid (st.vertexLoad mid + 1) m =
      (Finset.univ.filter (fun i : Fin n =>
        m ∈ ((Function.update st.records w
          ((st.records w).addPartition mid)) i).partitions)).card
    by_cases hm : m = mid
    · subst hm
      rw [Function.update_same]
      have hset : (Finset.univ.filter (fun i : Fin n =>
          m ∈ ((Function.update st.records w
            ((st.records w).addPartition m)) i).partitions)) =
          insert w (Finset.univ.filter
            (fun i : Fin n => m ∈ (st.records i).partitions)) := by
        apply Finset.ext
        intro i
        simp only [Finset.mem_filter, Finset.mem_univ, true_and, Finset.mem_insert]
        by_cases hi : i = w
        · subst hi
          rw [Function.update_same]
          simp [Record.addPartition]
        · rw [Function.update_noteq hi]
          simp [hi]
      rw [hset, Finset.card_insert_of_not_mem (by simp [hwmem]), hinv m]
    · rw [Function.update_noteq hm, hinv m]
      congr 1
      apply Finset.filter_congr
      intro i _
      by_cases hi : i = w
      · subst hi
        rw [Function.update_same]
        simp [Record.addPartition, hm]
      · rw [Function.update_noteq hi]

theorem updRecord_incDegree_inv (w : Fin n) (st : PartitionState n)
    (hinv : vertexLoadInv st) :
    vertexLoadInv (st.updRecord w Record.incrementDegree) := by
  refine vertexLoadInv_of_same st (st.updRecord w Record.incrementDegree) rfl ?_ hinv
  intro i
  show (st.records i).partitions =
    ((Function.update st.records w ((st.records w).incrementDegree)) i).partitions
  by_cases hi : i = w
  · subst hi
    rw [Function.update_same]
    rfl
  · rw [Function.update_noteq hi]

theorem incrementMachineLoad_inv (mid : Nat) (st : PartitionState n)
    (hinv : vertexLoadInv st) :
    vertexLoadInv (st.incrementMachineLoad mid) :=
  vertexLoadInv_of_same st _ rfl (fun _ => rfl) hinv

/-- C10: against a coordinated (extended) state, with the C++ cast semantics
(castThrows = false, the coordinated branch), a completed performStep call
preserves the invariant that vertexLoad m counts the vertices holding a
replica in m: incrementMachineLoadVertices fires exactly when a vertex
without a replica in the chosen partition receives one. -/
theorem hdrf_vertex_load_invariant (P : Int) (lam eps : ℚ) (r : Nat)
    (u v : Fin n) (st st1 : PartitionState n) (mid : Nat)
    (hext : st.extended = true) (hinv : vertexLoadInv st)
    (h : performStepCore false P lam eps r u v st = .ok (st1, mid)) :
    vertexLoadInv st1 := by
  obtain ⟨mx, c, hres, hne, hmid, hst⟩ := performStepCore_ok_inv h
  subst hst
  unfold applyUpdates
  apply updRecord_incDegree_inv
  apply updRecord_incDegree_inv
  apply incrementMachineLoad_inv
  show vertexLoadInv (condAddReplica true mid v (condAddReplica true mid u st))
  exact condAddReplica_inv mid v _ (condAddReplica_inv mid u st hinv)

/-- A fresh one-vertex coordinated state: degree 0, empty replica set,
unlocked, all loads zero. -/
def st0one : PartitionState 1 :=
  ⟨fun _ => ⟨0, ∅, false⟩, fun _ => 0, fun _ => 0, true⟩

/-- A fresh two-vertex coordinated state. -/
def st0two : PartitionState 2 :=
  ⟨fun _ => ⟨0, ∅, false⟩, fun _ => 0, fun _ => 0, true⟩

/-- A fresh one-vertex base-capability state (extended = false). -/
def stBase : PartitionState 1 :=
  ⟨fun _ => ⟨0, ∅, false⟩, fun _ => 0, fun _ => 0, false⟩

theorem stepScore_st0two (m : Nat) : stepScore 1 1 (0 : Fin 2) 1 st0two 2 m = 0 := by
  simp [stepScore, hdrfScore, st0two, PartitionState.getRecord,
    PartitionState.getMachineLoad, PartitionState.getMinLoad,
    PartitionState.getMaxLoad, Record.hasReplicaInPartition, Record.getDegree,
    List.range_succ]

theorem loop_st0two :
    scoringLoop (stepScore 1 1 (0 : Fin 2) 1 st0two 2) (List.range 2) 0 [] =
      .ok (0, [0, 1]) := by
  have h2 : List.range 2 = [0, 1] := by decide
  rw [h2]
  simp [scoringLoop, stepScore_st0two]

theorem eval_st0two :
    performStepCore false 2 1 1 0 (0 : Fin 2) 1 st0two =
      .ok (applyUpdates false 0 0 1 st0two, 0) := by
  unfold performStepCore
  rw [show ((2 : Int).toNat) = 2 from rfl, loop_st0two]
  rfl

theorem stepScore_st0one (m : Nat) : stepScore 1 1 (0 : Fin 1) 0 st0one 1 m = 0 := by
  simp [stepScore, hdrfScore, st0one, PartitionState.getRecord,
    PartitionState.getMachineLoad, PartitionState.getMinLoad,
    PartitionState.getMaxLoad, Record.hasReplicaInPartition, Record.getDegree,
    List.range_succ]

theorem loop_st0one :
    scoringLoop (stepScore 1 1 (0 : Fin 1) 0 st0one 1) (List.range 1) 0 [] =
      .ok (0, [0]) := by
  have h1 : List.range 1 = [0] := by decide
  rw [h1]
  simp [scoringLoop, stepScore_st0one]

theorem eval_st0one :
    performStepCore false 1 1 1 0 (0 : Fin 1) 0 st0one =
      .ok (applyUpdates false 0 0 0 st0one, 0) := by
  unfold performStepCore
  rw [show ((1 : Int).toNat) = 1 from rfl, loop_st0one]
  rfl

theorem stepScore_stBase (m : Nat) : stepScore 1 1 (0 : Fin 1) 0 stBase 1 m = 0 := by
  simp [stepScore, hdrfScore, stBase, PartitionState.getRecord,
    PartitionState.getMachineLoad, PartitionState.getMinLoad,
    PartitionState.getMaxLoad, Record.hasReplicaInPartition, Record.getDegree,
    List.range_succ]

theorem loop_stBase :
    scoringLoop (stepScore 1 1 (0 : Fin 1) 0 stBase 1) (List.range 1) 0 [] =
      .ok (0, [0]) := by
  have h1 : List.range 1 = [0] := by decide
  rw [h1]
  simp [scoringLoop, stepScore_stBase]

theorem eval_stBase :
    performStepCore false 1 1 1 0 (0 : Fin 1) 0 stBase =
      .ok (applyUpdates false 0 0 0 stBase, 0) := by
  unfold performStepCore
  rw [show ((1 : Int).toNat) = 1 from rfl, loop_stBase]
  rfl

/-- C2 counterexample: processing the self-loop (0, 0) from a fresh state
raises the vertex's degree from 0 to 2, not by 1 in total: HDRF.hpp lines
200-201 call incrementDegree on u_record and v_record, which are the same
record for a self-loop. -/
theorem hdrf_selfloop_degree_counterexample :
    (performStepCore false 1 1 1 0 (0 : Fin 1) 0 st0one).map
        (fun p => (p.1.records 0).degree) = .ok 2 ∧
    (st0one.records 0).degree = 0 := by
  refine ⟨?_, rfl⟩
  rw [eval_st0one]
  show Except.ok ((applyUpdates false 0 0 0 st0one).records 0).degree = Except.ok 2
  rw [applyUpdates_degree_self]
  rfl

theorem hdrf_degree_increment_amended_witness :
    ((applyUpdates false 0 0 0 st0one).records 0).degree =
      (st0one.records 0).degree + 2 :=
  (hdrf_degree_increment_amended false 1 1 1 0 0 0 st0one
    (applyUpdates false 0 0 0 st0one) 0 eval_st0one).1 rfl

/-- C3: with the C++ semantics of the cast on HDRF.hpp line 173
(std::static_pointer_cast performs a static_cast and can never raise
std::bad_cast, so the catch branch is unreachable and castThrows = false),
performStep run against a base-capability state (extended = false) still
executes the coordinated branch and increments the vertex-load counter
instead of skipping that bookkeeping: no runtime capability detection takes
place. -/
theorem hdrf_base_state_vertex_load_written :
    stBase.extended = false ∧ stBase.vertexLoad 0 = 0 ∧
    (performStepCore false 1 1 1 0 (0 : Fin 1) 0 stBase).map
        (fun p => p.1.vertexLoad 0) = .ok 1 := by
  refine ⟨rfl, rfl, ?_⟩
  rw [eval_stBase]
  rfl

/-- C8: on a self-loop the lock-call trace of a completed performStep is
getLock(u); releaseLock(u); releaseLock(u): the single record is acquired
once (the acquisition skips v when u = v, HDRF.hpp line 91) but released
twice (lines 204-205 release u_record and v_record unconditionally), so the
second releaseLock call is made by a caller that no longer holds the lock. -/
theorem hdrf_selfloop_double_release :
    lockTrace (0 : Fin 1) 0 =
      [LockEvent.acquire 0, LockEvent.release 0, LockEvent.release 0] ∧
    countAcquires (0 : Fin 1) (lockTrace 0 0) = 1 ∧
    countReleases (0 : Fin 1) (lockTrace 0 0) = 2 := by
  refine ⟨?_, ?_, ?_⟩ <;> decide

theorem hdrf_lock_phase_no_mutation_witness :
    (st0two.setLock 0 true).setLock 0 false = st0two :=
  (hdrf_lock_phase_no_mutation (0 : Fin 2) 1 true st0two rfl).2
    ((st0two.setLock 0 true).setLock 0 false) rfl

theorem hdrf_negative_score_unreachable_witness :
    (∀ m, 0 ≤ stepScore 1 1 (0 : Fin 1) 0 st0one 1 m) ∧
    performStepCore false 1 1 1 0 (0 : Fin 1) 0 st0one ≠
      .error .negativeScore :=
  hdrf_negative_score_unreachable false 1 1 1 0 0 0 st0one
    (by norm_num) (by norm_num) (by decide)

theorem hdrf_candidates_argmax_witness :
    ∃ mx c, scoringLoop (stepScore 1 1 (0 : Fin 2) 1 st0two 2)
        (List.range 2) 0 [] = .ok (mx, c) ∧
      (∀ m, m ∈ c ↔ (m < 2 ∧ stepScore 1 1 (0 : Fin 2) 1 st0two 2 m = mx)) ∧
      (∀ m, m < 2 → stepScore 1 1 (0 : Fin 2) 1 st0two 2 m ≤ mx) ∧
      0 ∈ c :=
  hdrf_candidates_argmax false 2 1 1 0 (0 : Fin 2) 1 st0two
    (applyUpdates false 0 0 1 st0two) 0 (by norm_num) eval_st0two

theorem hdrf_edge_load_sum_invariant_witness :
    sumEdgeLoad 2 (applyUpdates false 0 0 1 st0two) = sumEdgeLoad 2 st0two + 1 :=
  ((hdrf_edge_load_sum_invariant false 2 1 1).1 0 0 1 st0two
    (applyUpdates false 0 0 1 st0two) 0 eval_st0two).2.2.2

theorem hdrf_vertex_load_invariant_witness :
    vertexLoadInv (applyUpdates false 0 0 1 st0two) := by
  have hinv0 : vertexLoadInv st0two := by
    intro m
    simp [st0two, vertexLoadInv]
  exact hdrf_vertex_load_invariant 2 1 1 0 0 1 st0two
    (applyUpdates false 0 0 1 st0two) 0 rfl hinv0 eval_st0two
